import Mathlib

/-!
# Verification of the MomentCatcher acoustic heat-spike detector

Shallow embedding of `scripts/acoustic_engine.py` (the algorithmic core of the
repository).  Machine floats are modelled as exact rationals `ℚ`; the numpy
primitives used by the source (`np.min`/`np.max`, `np.percentile` with the
default linear interpolation, `np.argmax`, `np.where`, python slicing and
`round`) are embedded as executable Lean functions on lists.  Fallible library
calls (`np.percentile` on an empty array raises `IndexError`) are modelled by
an `Option` result of the pipeline.
-/

namespace AcousticEngine

/-- Source constant `SR = 22050` (sampling rate). -/
def SR : ℚ := 22050

/-- Source constant `HOP_LENGTH = 512` (frame shift in samples). -/
def HOP_LENGTH : ℚ := 512

/-- Source constant `SPIKE_PERCENTILE = 95`. -/
def SPIKE_PERCENTILE : ℚ := 95

/-- Source constant `MERGE_SECONDS = 0.5`. -/
def MERGE_SECONDS : ℚ := 1/2

/-- `arr.min()` of numpy on a nonempty array (the empty case is never reached
by the source: `_normalize` is only applied to the aligned feature sequences,
and on `[]` numpy would raise; we pick the junk value 0 there). -/
def listMin : List ℚ → ℚ
  | [] => 0
  | x :: xs => xs.foldl min x

/-- `arr.max()` of numpy, as `listMin`. -/
def listMax : List ℚ → ℚ
  | [] => 0
  | x :: xs => xs.foldl max x

/-- Source `_normalize` (lines 92–97): min–max normalization; when all values
are identical it returns `np.zeros_like(arr)`. -/
def _normalize (arr : List ℚ) : List ℚ :=
  if listMax arr = listMin arr then List.replicate arr.length 0
  else arr.map (fun x => (x - listMin arr) / (listMax arr - listMin arr))

/-- Lines 66–68 of the source: `min_len = min(len(rms), len(pitch_var))`,
`rms = rms[:min_len]`, `pitch_var = pitch_var[:min_len]`. -/
def aligned (rms pitch_var : List ℚ) : List ℚ × List ℚ :=
  let min_len := min rms.length pitch_var.length
  (rms.take min_len, pitch_var.take min_len)

/-- Lines 71–73 of the source:
`heat = _normalize(rms) * (1.0 + _normalize(pitch_var))` (elementwise). -/
def heat_seq (rms pitch_var : List ℚ) : List ℚ :=
  List.zipWith (fun a b => a * (1 + b))
    (_normalize (aligned rms pitch_var).1)
    (_normalize (aligned rms pitch_var).2)

/-- `np.percentile(xs, q)` with numpy's default linear interpolation, for a
nonempty `xs`: sort ascending, virtual index `pos = q/100 * (n-1)`, then
linearly interpolate between the order statistics at `⌊pos⌋` and at
`min (⌊pos⌋+1) (n-1)` (numpy clips the upper index to the last element).
On an empty array numpy raises `IndexError`; the caller guards that case. -/
def np_percentile (xs : List ℚ) (q : ℚ) : ℚ :=
  let b := xs.insertionSort (· ≤ ·)
  let pos : ℚ := q / 100 * ((xs.length : ℚ) - 1)
  let k : ℕ := (⌊pos⌋).toNat
  let lo := b.getD k 0
  let hi := b.getD (min (k + 1) (xs.length - 1)) 0
  lo + Int.fract pos * (hi - lo)

/-- Modelled from the spec's words (§4.4): "the 95th percentile of the heat
sequence (linear interpolation between order statistics, the conventional
percentile definition)": with `h = q/100·(n-1)` and `γ = h - ⌊h⌋`, the value
`(1-γ)·s⌊h⌋ + γ·s⌈h⌉` over the sorted sequence `s`. -/
def percentileSpec (xs : List ℚ) (q : ℚ) : ℚ :=
  let s := xs.insertionSort (· ≤ ·)
  let pos : ℚ := q / 100 * ((xs.length : ℚ) - 1)
  (1 - Int.fract pos) * s.getD (⌊pos⌋).toNat 0 + Int.fract pos * s.getD (⌈pos⌉).toNat 0

/-- Line 76 of the source: `threshold = np.percentile(heat, SPIKE_PERCENTILE)`. -/
def threshold_of (rms pitch_var : List ℚ) : ℚ :=
  np_percentile (heat_seq rms pitch_var) SPIKE_PERCENTILE

/-- Line 77 of the source: `spike_frames = np.where(heat > threshold)[0]` —
the ascending list of indices whose heat strictly exceeds the threshold. -/
def spike_frames_of (rms pitch_var : List ℚ) : List ℕ :=
  (List.range (heat_seq rms pitch_var).length).filter
    (fun i => decide (threshold_of rms pitch_var < (heat_seq rms pitch_var).getD i 0))

/-- `librosa.frames_to_time(i, sr, hop_length) = i * hop_length / sr`. -/
def frames_to_time (i : ℕ) : ℚ := i * HOP_LENGTH / SR

/-- Line 83 of the source: the spike candidate times. -/
def spike_times_of (rms pitch_var : List ℚ) : List ℚ :=
  (spike_frames_of rms pitch_var).map frames_to_time

/-- Line 84 of the source: `spike_heats = heat[spike_frames]`. -/
def spike_heats_of (rms pitch_var : List ℚ) : List ℚ :=
  (spike_frames_of rms pitch_var).map (fun i => (heat_seq rms pitch_var).getD i 0)

/-- Python `round(x, d)` (to `d` decimal places).  Python uses round-half-even
on binary floats; in this exact-rational model we use round-half-up, which
agrees everywhere except exact halves — and no quantity rounded by the source
lands on an exact half at a point any claim depends on. -/
def round_to (d : ℕ) (x : ℚ) : ℚ := ((round (x * 10 ^ d) : ℤ) : ℚ) / 10 ^ d

/-- Helper for `np.argmax`: scan the remaining list, keeping the first index
attaining the maximum (numpy returns the first occurrence of the maximum). -/
def argmaxAux : List ℚ → ℕ → ℚ → ℕ → ℕ
  | [], _, _, bi => bi
  | x :: xs, i, bv, bi =>
    if bv < x then argmaxAux xs (i + 1) x i else argmaxAux xs (i + 1) bv bi

/-- `np.argmax(xs)`: index of the first occurrence of the maximum (0 for an
empty list, a case the source never reaches). -/
def np_argmax : List ℚ → ℕ
  | [] => 0
  | x :: xs => argmaxAux xs 1 x 0

/-- One iteration of the loop at lines 110–114 of the source, acting on the
current `groups` list for the next index `i`:
`if times[i] - times[groups[-1][-1]] <= merge_gap: groups[-1].append(i)
 else: groups.append([i])`. -/
def groupStep (times : List ℚ) (merge_gap : ℚ) (groups : List (List ℕ)) (i : ℕ) :
    List (List ℕ) :=
  if times.getD i 0 - times.getD ((groups.getLastD []).getLastD 0) 0 ≤ merge_gap then
    groups.dropLast ++ [(groups.getLastD []) ++ [i]]
  else
    groups ++ [[i]]

/-- Lines 109–114 of the source: `groups = [[0]]`, then the loop over
`i in range(1, len(times))`. -/
def build_groups (times : List ℚ) (merge_gap : ℚ) : List (List ℕ) :=
  (List.range' 1 (times.length - 1)).foldl (groupStep times merge_gap) [[0]]

/-- Output record of the pipeline: `{"seconds": ..., "intensity": ...}`. -/
structure MergedSpike where
  seconds : ℚ
  intensity : ℚ
deriving DecidableEq, Repr

/-- Lines 117–122 of the source: the representative index of one group,
`best_idx = group[np.argmax(heats[group])]`. -/
def best_of (heats : List ℚ) (group : List ℕ) : ℕ :=
  group.getD (np_argmax (group.map (fun j => heats.getD j 0))) 0

/-- Source `_merge_spikes` (lines 100–123). -/
def _merge_spikes (times heats : List ℚ) (merge_gap : ℚ) : List MergedSpike :=
  if times.isEmpty then []
  else
    (build_groups times merge_gap).map (fun group =>
      let best_idx := best_of heats group
      ⟨round_to 2 (times.getD best_idx 0), round_to 4 (heats.getD best_idx 0)⟩)

/-- Source `detect_spikes` (lines 42–89) from the two frame-level feature
sequences onward (loading the waveform and extracting `rms`, `f0` and the
voiced flags is delegated to librosa, the external feature extractor; the
pitch-variability stage, lines 57–63, is modelled separately below as
`pitch_var_list`).  `none` models the `IndexError` that `np.percentile`
raises at line 76 when the heat sequence is empty. -/
def detect_spikes (rms pitch_var : List ℚ) : Option (List MergedSpike) :=
  if heat_seq rms pitch_var = [] then none
  else if spike_frames_of rms pitch_var = [] then some []
  else some (_merge_spikes (spike_times_of rms pitch_var)
    (spike_heats_of rms pitch_var) MERGE_SECONDS)

/-- Modelled from the spec's words (§4.5 and §9): the merger as a fold over the
candidates carrying the current cluster and the finalized clusters — "for each
subsequent candidate, if its time minus the time of the last candidate added
to the current cluster is ≤ the merge gap, append it to that cluster;
otherwise start a new cluster". -/
def specGo (times : List ℚ) (merge_gap : ℚ) :
    List ℕ → List ℕ → List (List ℕ) → List (List ℕ)
  | [], cur, fin => fin ++ [cur]
  | i :: rest, cur, fin =>
    if times.getD i 0 - times.getD (cur.getLastD 0) 0 ≤ merge_gap then
      specGo times merge_gap rest (cur ++ [i]) fin
    else
      specGo times merge_gap rest [i] (fin ++ [cur])

/-- Modelled from the spec's words (§4.5): "start a new cluster with the first
candidate", then scan the rest with `specGo`. -/
def spec_clusters (times : List ℚ) (merge_gap : ℚ) : List (List ℕ) :=
  match List.range times.length with
  | [] => []
  | i :: rest => specGo times merge_gap rest [i] []

/-- Line 58 of the source: `f0_safe = np.where(voiced_flag, f0, 0.0)`. -/
def f0_safe (f0 : List ℚ) (voiced : List Bool) : List ℚ :=
  List.zipWith (fun p v => if v then p else 0) f0 voiced

/-- Source constant `window = 10` (line 59). -/
def window : ℕ := 10

/-- Python slice `xs[lo:hi]` for natural bounds. -/
def pySlice (xs : List ℚ) (lo hi : ℕ) : List ℚ := (xs.take hi).drop lo

/-- Lines 60–63 of the source:
`pitch_var = [np.std(f0_safe[max(0, i - window): i + window]) for i in range(len(f0_safe))]`.
The standard-deviation primitive `σ` (numpy's `np.std`, the square root of the
mean squared deviation — an irrational real in general) is kept abstract: the
claims about this stage concern which window each frame's `σ` is applied to,
which is independent of `σ`.  Note `i - window` is natural subtraction, which
is exactly python's `max(0, i - window)`. -/
def pitch_var_list (σ : List ℚ → ℚ) (f0 : List ℚ) (voiced : List Bool) : List ℚ :=
  (List.range (f0_safe f0 voiced).length).map
    (fun i => σ (pySlice (f0_safe f0 voiced) (i - window) (i + window)))

/-- `np.var`: the population variance (mean of squared deviations), the
quantity whose square root `np.std` returns.  Used to instantiate the abstract
`σ` in witnesses. -/
def np_var (xs : List ℚ) : ℚ :=
  let μ := xs.sum / xs.length
  (xs.map (fun x => (x - μ) ^ 2)).sum / xs.length

/-- Modelled from the spec's words (§4.2): "a symmetric window of fixed
half-width around `i`, clipped to sequence bounds": the elements at exactly
the indices `j` of the sequence with `max(0, i-W) ≤ j < i+W`, in order, with
no padding at the edges. -/
def specWindow (xs : List ℚ) (i : ℕ) : List ℚ :=
  ((List.range xs.length).filter
    (fun j => decide (i - window ≤ j) && decide (j < i + window))).map
    (fun j => xs.getD j 0)

/-! ## Helper lemmas: `listMin` / `listMax` -/

lemma foldl_min_le_init (xs : List ℚ) (a : ℚ) : xs.foldl min a ≤ a := by
  induction xs generalizing a with
  | nil => simp
  | cons x xs ih => exact le_trans (ih (min a x)) (min_le_left a x)

lemma init_le_foldl_max (xs : List ℚ) (a : ℚ) : a ≤ xs.foldl max a := by
  induction xs generalizing a with
  | nil => simp
  | cons x xs ih => exact le_trans (le_max_left a x) (ih (max a x))

lemma foldl_min_le_mem {xs : List ℚ} {x : ℚ} (hx : x ∈ xs) (a : ℚ) :
    xs.foldl min a ≤ x := by
  induction xs generalizing a with
  | nil => cases hx
  | cons y ys ih =>
    rcases List.mem_cons.mp hx with rfl | h
    · exact le_trans (foldl_min_le_init ys (min a x)) (min_le_right a x)
    · exact ih h (min a y)

lemma mem_le_foldl_max {xs : List ℚ} {x : ℚ} (hx : x ∈ xs) (a : ℚ) :
    x ≤ xs.foldl max a := by
  induction xs generalizing a with
  | nil => cases hx
  | cons y ys ih =>
    rcases List.mem_cons.mp hx with rfl | h
    · exact le_trans (le_max_right a x) (init_le_foldl_max ys (max a x))
    · exact ih h (max a y)

lemma listMin_le_mem {xs : List ℚ} {x : ℚ} (hx : x ∈ xs) : listMin xs ≤ x := by
  cases xs with
  | nil => cases hx
  | cons y ys =>
    rcases List.mem_cons.mp hx with rfl | h
    · exact foldl_min_le_init ys x
    · exact foldl_min_le_mem h y

lemma mem_le_listMax {xs : List ℚ} {x : ℚ} (hx : x ∈ xs) : x ≤ listMax xs := by
  cases xs with
  | nil => cases hx
  | cons y ys =>
    rcases List.mem_cons.mp hx with rfl | h
    · exact init_le_foldl_max ys x
    · exact mem_le_foldl_max h y

lemma foldl_min_map_mul (c : ℚ) (hc : 0 ≤ c) (xs : List ℚ) (a : ℚ) :
    (xs.map (fun x => c * x)).foldl min (c * a) = c * xs.foldl min a := by
  induction xs generalizing a with
  | nil => simp
  | cons x xs ih => simpa [mul_min_of_nonneg _ _ hc] using ih (min a x)

lemma foldl_max_map_mul (c : ℚ) (hc : 0 ≤ c) (xs : List ℚ) (a : ℚ) :
    (xs.map (fun x => c * x)).foldl max (c * a) = c * xs.foldl max a := by
  induction xs generalizing a with
  | nil => simp
  | cons x xs ih => simpa [mul_max_of_nonneg _ _ hc] using ih (max a x)

lemma listMin_map_mul (c : ℚ) (hc : 0 ≤ c) (xs : List ℚ) :
    listMin (xs.map (fun x => c * x)) = c * listMin xs := by
  cases xs with
  | nil => simp [listMin]
  | cons x xs => simpa [listMin] using foldl_min_map_mul c hc xs x

lemma listMax_map_mul (c : ℚ) (hc : 0 ≤ c) (xs : List ℚ) :
    listMax (xs.map (fun x => c * x)) = c * listMax xs := by
  cases xs with
  | nil => simp [listMax]
  | cons x xs => simpa [listMax] using foldl_max_map_mul c hc xs x

/-! ## Helper lemmas: `_normalize` -/

lemma length_normalize (arr : List ℚ) : (_normalize arr).length = arr.length := by
  unfold _normalize
  split <;> simp

lemma mem_normalize_bounds {arr : List ℚ} {y : ℚ} (hy : y ∈ _normalize arr) :
    0 ≤ y ∧ y ≤ 1 := by
  unfold _normalize at hy
  split at hy
  · rcases List.eq_of_mem_replicate hy with rfl
    norm_num
  · rename_i hne
    rcases List.mem_map.mp hy with ⟨x, hx, rfl⟩
    have h1 : listMin arr ≤ x := listMin_le_mem hx
    have h2 : x ≤ listMax arr := mem_le_listMax hx
    have h3 : listMin arr ≤ listMax arr := le_trans h1 h2
    have h4 : 0 < listMax arr - listMin arr := by
      rcases lt_or_eq_of_le h3 with h | h
      · linarith
      · exact absurd h.symm hne
    constructor
    · apply div_nonneg <;> linarith
    · rw [div_le_one h4]; linarith

lemma getD_normalize {arr : List ℚ} (hne : listMax arr ≠ listMin arr) {i : ℕ}
    (hi : i < arr.length) :
    (_normalize arr).getD i 0 = (arr.getD i 0 - listMin arr) / (listMax arr - listMin arr) := by
  unfold _normalize
  rw [if_neg hne]
  rw [List.getD_eq_getElem _ 0 (by simpa using hi), List.getD_eq_getElem _ 0 hi]
  simp

lemma normalize_const {arr : List ℚ} (h : listMax arr = listMin arr) :
    _normalize arr = List.replicate arr.length 0 := by
  unfold _normalize
  rw [if_pos h]

lemma normalize_map_mul (c : ℚ) (hc : 0 < c) (xs : List ℚ) :
    _normalize (xs.map (fun x => c * x)) = _normalize xs := by
  unfold _normalize
  rw [listMin_map_mul c hc.le, listMax_map_mul c hc.le]
  by_cases h : listMax xs = listMin xs
  · rw [if_pos (by rw [h]), if_pos h, List.length_map]
  · have hne : c * listMax xs ≠ c * listMin xs := by
      intro hcc
      exact h (mul_left_cancel₀ hc.ne' hcc)
    rw [if_neg hne, if_neg h, List.map_map]
    apply List.map_congr_left
    intro x _
    have hden : listMax xs - listMin xs ≠ 0 := fun hz => h (by linarith)
    simp only [Function.comp]
    rw [← mul_sub c, ← mul_sub c, mul_div_mul_left _ _ hc.ne']

/-! ## Helper lemmas: `heat_seq` -/

lemma length_heat_seq (rms pitch_var : List ℚ) :
    (heat_seq rms pitch_var).length = min rms.length pitch_var.length := by
  simp [heat_seq, aligned, length_normalize]

lemma getD_heat_seq (rms pitch_var : List ℚ) {i : ℕ}
    (hi : i < (heat_seq rms pitch_var).length) :
    (heat_seq rms pitch_var).getD i 0 =
      (_normalize (aligned rms pitch_var).1).getD i 0 *
        (1 + (_normalize (aligned rms pitch_var).2).getD i 0) := by
  have h1 : i < (_normalize (aligned rms pitch_var).1).length := by
    simp only [heat_seq, List.length_zipWith, lt_min_iff] at hi
    exact hi.1
  have h2 : i < (_normalize (aligned rms pitch_var).2).length := by
    simp only [heat_seq, List.length_zipWith, lt_min_iff] at hi
    exact hi.2
  rw [List.getD_eq_getElem _ 0 hi, List.getD_eq_getElem _ 0 h1, List.getD_eq_getElem _ 0 h2]
  simp [heat_seq]

lemma heat_seq_mem_bounds {rms pitch_var : List ℚ} {x : ℚ}
    (hx : x ∈ heat_seq rms pitch_var) : 0 ≤ x ∧ x ≤ 2 := by
  rcases List.mem_iff_getElem.mp hx with ⟨i, hi, rfl⟩
  have hx1 : i < (_normalize (aligned rms pitch_var).1).length := by
    simp only [heat_seq, List.length_zipWith, lt_min_iff] at hi
    exact hi.1
  have hx2 : i < (_normalize (aligned rms pitch_var).2).length := by
    simp only [heat_seq, List.length_zipWith, lt_min_iff] at hi
    exact hi.2
  have e : (heat_seq rms pitch_var)[i] =
      (_normalize (aligned rms pitch_var).1)[i] *
        (1 + (_normalize (aligned rms pitch_var).2)[i]) := by
    simp [heat_seq]
  rw [e]
  have b1 := mem_normalize_bounds (List.getElem_mem hx1)
  have b2 := mem_normalize_bounds (List.getElem_mem hx2)
  constructor
  · nlinarith [b1.1, b2.1]
  · nlinarith [b1.1, b1.2, b2.1, b2.2]

/-! ## Helper lemmas: `np_percentile` -/

lemma sorted_getD_mem {xs : List ℚ} {k : ℕ} (hk : k < xs.length) :
    (xs.insertionSort (· ≤ ·)).getD k 0 ∈ xs := by
  have hperm := List.perm_insertionSort (fun a b : ℚ => a ≤ b) xs
  have hlen : (xs.insertionSort (· ≤ ·)).length = xs.length := hperm.length_eq
  rw [List.getD_eq_getElem _ 0 (by rw [hlen]; exact hk)]
  exact hperm.subset (List.getElem_mem _)

lemma percentile_pos_nonneg {n : ℕ} (hn : 1 ≤ n) {q : ℚ} (hq0 : 0 ≤ q) :
    0 ≤ q / 100 * ((n : ℚ) - 1) := by
  have h1 : (1 : ℚ) ≤ (n : ℚ) := by exact_mod_cast hn
  have := div_nonneg hq0 (by norm_num : (0:ℚ) ≤ 100)
  nlinarith

lemma percentile_pos_le {n : ℕ} (hn : 1 ≤ n) {q : ℚ} (hq0 : 0 ≤ q) (hq1 : q ≤ 100) :
    q / 100 * ((n : ℚ) - 1) ≤ (n : ℚ) - 1 := by
  have h1 : (1 : ℚ) ≤ (n : ℚ) := by exact_mod_cast hn
  have h2 : q / 100 ≤ 1 := by
    rw [div_le_one (by norm_num : (0:ℚ) < 100)]; exact hq1
  have h3 : (0:ℚ) ≤ q / 100 := div_nonneg hq0 (by norm_num)
  nlinarith

lemma percentile_floor_lt {n : ℕ} (hn : 1 ≤ n) {q : ℚ} (hq0 : 0 ≤ q) (hq1 : q ≤ 100) :
    (⌊q / 100 * ((n : ℚ) - 1)⌋).toNat < n := by
  set pos := q / 100 * ((n : ℚ) - 1) with hpos
  have hle : pos ≤ (n : ℚ) - 1 := percentile_pos_le hn hq0 hq1
  have hcast : (n : ℚ) - 1 = ((n - 1 : ℕ) : ℚ) := by
    have : ((n - 1 : ℕ) : ℚ) = (n : ℚ) - 1 := by
      push_cast [Nat.cast_sub hn]; ring
    rw [this]
  have hfloor : ⌊pos⌋ ≤ ((n - 1 : ℕ) : ℤ) := by
    rw [hcast] at hle
    have h2 : ⌊pos⌋ ≤ ⌊((n - 1 : ℕ) : ℚ)⌋ := Int.floor_le_floor hle
    simpa using h2
  have : (⌊pos⌋).toNat ≤ n - 1 := Int.toNat_le.mpr hfloor
  omega

lemma np_percentile_nonneg {xs : List ℚ} (hne : xs ≠ []) {q : ℚ} (hq0 : 0 ≤ q)
    (hq1 : q ≤ 100) (hpos : ∀ x ∈ xs, 0 ≤ x) : 0 ≤ np_percentile xs q := by
  have hn : 1 ≤ xs.length := List.length_pos.mpr hne
  simp only [np_percentile]
  have hk : (⌊q / 100 * ((xs.length : ℚ) - 1)⌋).toNat < xs.length :=
    percentile_floor_lt hn hq0 hq1
  have hk2 : min ((⌊q / 100 * ((xs.length : ℚ) - 1)⌋).toNat + 1) (xs.length - 1)
      < xs.length := by omega
  have hlo := hpos _ (sorted_getD_mem hk)
  have hhi := hpos _ (sorted_getD_mem hk2)
  have hfr0 : 0 ≤ Int.fract (q / 100 * ((xs.length : ℚ) - 1)) := Int.fract_nonneg _
  have hfr1 : Int.fract (q / 100 * ((xs.length : ℚ) - 1)) < 1 := Int.fract_lt_one _
  nlinarith

lemma np_percentile_eq_spec {xs : List ℚ} (hne : xs ≠ []) {q : ℚ} (hq0 : 0 ≤ q)
    (hq1 : q ≤ 100) : np_percentile xs q = percentileSpec xs q := by
  have hn : 1 ≤ xs.length := List.length_pos.mpr hne
  simp only [np_percentile, percentileSpec]
  set pos := q / 100 * ((xs.length : ℚ) - 1) with hposdef
  by_cases hfr : Int.fract pos = 0
  · rw [hfr]
    have hceil : ⌈pos⌉ = ⌊pos⌋ := by
      have hp : pos = ((⌊pos⌋ : ℤ) : ℚ) := by
        have := Int.floor_add_fract pos
        rw [hfr] at this
        linarith
      rw [hp, Int.ceil_intCast, Int.floor_intCast]
    rw [hceil]
    ring
  · have hflt : (⌊pos⌋ : ℚ) < pos := by
      rcases lt_or_eq_of_le (Int.floor_le pos) with h | h
      · exact h
      · exact absurd (by rw [← h, Int.fract_intCast]) hfr
    have hceil : ⌈pos⌉ = ⌊pos⌋ + 1 := by
      have h1 : ⌈pos⌉ ≤ ⌊pos⌋ + 1 := Int.ceil_le_floor_add_one pos
      have h2 : ⌊pos⌋ < ⌈pos⌉ := by
        have := Int.le_ceil pos
        have : (⌊pos⌋ : ℚ) < (⌈pos⌉ : ℚ) := lt_of_lt_of_le hflt (Int.le_ceil pos)
        exact_mod_cast this
      omega
    have hplt : pos < (xs.length : ℚ) - 1 := by
      rcases lt_or_eq_of_le (percentile_pos_le hn hq0 hq1) with h | h
      · exact h
      · exfalso
        apply hfr
        have hcast : (xs.length : ℚ) - 1 = ((xs.length - 1 : ℕ) : ℚ) := by
          push_cast [Nat.cast_sub hn]; ring
        show Int.fract (q / 100 * ((xs.length : ℚ) - 1)) = 0
        rw [h, hcast, Int.fract_natCast]
    have hfl0 : 0 ≤ ⌊pos⌋ := Int.floor_nonneg.mpr (percentile_pos_nonneg hn hq0)
    have hkk : (⌊pos⌋).toNat + 1 ≤ xs.length - 1 := by
      have hcast : (xs.length : ℚ) - 1 = ((xs.length - 1 : ℕ) : ℚ) := by
        push_cast [Nat.cast_sub hn]; ring
      rw [hcast] at hplt
      have : ⌊pos⌋ < ((xs.length - 1 : ℕ) : ℤ) := by
        have h2 : (⌊pos⌋ : ℚ) < ((xs.length - 1 : ℕ) : ℚ) :=
          lt_of_le_of_lt (Int.floor_le pos) hplt
        exact_mod_cast h2
      omega
    rw [min_eq_left hkk, hceil]
    have htn : (⌊pos⌋ + 1).toNat = (⌊pos⌋).toNat + 1 := by omega
    rw [htn]
    ring

/-! ## Helper lemmas: `np_argmax` -/

lemma argmaxAux_spec (full : List ℚ) :
    ∀ (xs : List ℚ) (i bi : ℕ), xs = full.drop i → bi < i → i ≤ full.length →
    (∀ j, j < i → full.getD j 0 ≤ full.getD bi 0) →
    (∀ j, j < i → full.getD j 0 = full.getD bi 0 → bi ≤ j) →
    argmaxAux xs i (full.getD bi 0) bi < full.length ∧
    (∀ j, j < full.length →
      full.getD j 0 ≤ full.getD (argmaxAux xs i (full.getD bi 0) bi) 0) ∧
    (∀ j, j < full.length →
      full.getD j 0 = full.getD (argmaxAux xs i (full.getD bi 0) bi) 0 →
      argmaxAux xs i (full.getD bi 0) bi ≤ j) := by
  intro xs
  induction xs with
  | nil =>
    intro i bi hdrop hbi hi hle htie
    have hlen : full.length ≤ i := by
      by_contra h
      push_neg at h
      have := List.drop_eq_nil_iff.mp hdrop.symm
      omega
    have hieq : i = full.length := le_antisymm hi hlen
    refine ⟨by simpa [argmaxAux] using (hieq ▸ hbi), ?_, ?_⟩
    · intro j hj; exact hle j (by omega)
    · intro j hj; exact htie j (by omega)
  | cons x xs ih =>
    intro i bi hdrop hbi hi hle htie
    have hilt : i < full.length := by
      by_contra h
      push_neg at h
      have : full.drop i = [] := List.drop_eq_nil_iff.mpr h
      rw [this] at hdrop
      cases hdrop
    have hx : x = full.getD i 0 := by
      have h0 : (full.drop i).getD 0 0 = full.getD i 0 := by
        rw [List.getD_eq_getElem _ 0 (by simpa using hilt),
          List.getD_eq_getElem _ 0 hilt]
        simp
      rw [← hdrop] at h0
      simpa using h0
    have hdrop' : xs = full.drop (i + 1) := by
      have : full.drop (i + 1) = (full.drop i).drop 1 := by
        rw [List.drop_drop]
      rw [this, ← hdrop]
      simp
    simp only [argmaxAux]
    by_cases hcmp : full.getD bi 0 < x
    · rw [if_pos hcmp, hx]
      exact ih (i + 1) i hdrop' (by omega) (by omega)
        (by
          intro j hj
          rcases Nat.lt_succ_iff_lt_or_eq.mp hj with h | rfl
          · exact le_of_lt (lt_of_le_of_lt (hle j h) (hx ▸ hcmp))
          · exact le_refl _)
        (by
          intro j hj hj2
          rcases Nat.lt_succ_iff_lt_or_eq.mp hj with h | rfl
          · exact absurd hj2 (ne_of_lt (lt_of_le_of_lt (hle j h) (hx ▸ hcmp)))
          · exact le_refl _)
    · rw [if_neg hcmp]
      push_neg at hcmp
      exact ih (i + 1) bi hdrop' (by omega) (by omega)
        (by
          intro j hj
          rcases Nat.lt_succ_iff_lt_or_eq.mp hj with h | rfl
          · exact hle j h
          · exact hx ▸ hcmp)
        (by
          intro j hj hj2
          rcases Nat.lt_succ_iff_lt_or_eq.mp hj with h | rfl
          · exact htie j h hj2
          · exact le_of_lt hbi)

lemma np_argmax_spec {xs : List ℚ} (hne : xs ≠ []) :
    np_argmax xs < xs.length ∧
    (∀ j, j < xs.length → xs.getD j 0 ≤ xs.getD (np_argmax xs) 0) ∧
    (∀ j, j < xs.length → xs.getD j 0 = xs.getD (np_argmax xs) 0 → np_argmax xs ≤ j) := by
  cases xs with
  | nil => exact absurd rfl hne
  | cons y ys =>
    have h0 : y = (y :: ys).getD 0 0 := rfl
    have hmain := argmaxAux_spec (y :: ys) ys 1 0 (by simp) (by omega) (by simp)
      (by intro j hj; interval_cases j; exact le_refl _)
      (by intro j hj _; omega)
    simpa [np_argmax] using hmain

/-! ## Helper lemmas: `round_to` -/

lemma abs_round_to_sub (d : ℕ) (x : ℚ) : |round_to d x - x| ≤ 1 / (2 * 10 ^ d) := by
  unfold round_to
  have hpow : (0:ℚ) < 10 ^ d := by positivity
  have h := abs_sub_round (x * 10 ^ d)
  have heq : ((round (x * 10 ^ d) : ℤ) : ℚ) / 10 ^ d - x =
      (((round (x * 10 ^ d) : ℤ) : ℚ) - x * 10 ^ d) / 10 ^ d := by
    field_simp
    ring
  rw [heq, abs_div, abs_of_pos hpow, div_le_div_iff₀ hpow (by positivity)]
  rw [abs_sub_comm] at h
  calc |((round (x * 10 ^ d) : ℤ) : ℚ) - x * 10 ^ d| * (2 * 10 ^ d)
      ≤ (1 / 2) * (2 * 10 ^ d) := by
        apply mul_le_mul_of_nonneg_right h (by positivity)
    _ = 1 * 10 ^ d := by ring

/-! ## Helper lemmas: `build_groups` -/

/-- The state of the loop of `_merge_spikes` after processing indices `1..k`. -/
def groups_upto (times : List ℚ) (merge_gap : ℚ) (k : ℕ) : List (List ℕ) :=
  (List.range' 1 k).foldl (groupStep times merge_gap) [[0]]

lemma build_groups_eq (times : List ℚ) (merge_gap : ℚ) :
    build_groups times merge_gap = groups_upto times merge_gap (times.length - 1) := rfl

lemma groups_upto_succ (times : List ℚ) (merge_gap : ℚ) (k : ℕ) :
    groups_upto times merge_gap (k + 1) =
      groupStep times merge_gap (groups_upto times merge_gap k) (k + 1) := by
  unfold groups_upto
  rw [List.range'_concat, List.foldl_append]
  simp [Nat.add_comm]

lemma headD_append_of_ne_nil {g : List ℕ} (h : g ≠ []) (l : List ℕ) :
    (g ++ l).headD 0 = g.headD 0 := by
  cases g with
  | nil => exact absurd rfl h
  | cons a t => simp

lemma getLastD_mem {l : List ℕ} (h : l ≠ []) (d : ℕ) : l.getLastD d ∈ l := by
  induction l with
  | nil => exact absurd rfl h
  | cons a t ih =>
    cases t with
    | nil => simp
    | cons b u => simpa using Or.inr (ih (by simp))

lemma groups_upto_invariant (times : List ℚ) (merge_gap : ℚ) (k : ℕ) :
    groups_upto times merge_gap k ≠ [] ∧
    (groups_upto times merge_gap k).flatten = List.range (k + 1) ∧
    (∀ g ∈ groups_upto times merge_gap k, g ≠ []) ∧
    ((groups_upto times merge_gap k).getLastD []).getLastD 0 = k ∧
    List.Chain' (fun g₁ g₂ =>
      ¬ (times.getD (g₂.headD 0) 0 - times.getD (g₁.getLastD 0) 0 ≤ merge_gap))
      (groups_upto times merge_gap k) := by
  induction k with
  | zero =>
    refine ⟨by simp [groups_upto], by simp [groups_upto, List.range_succ],
      ?_, by simp [groups_upto], ?_⟩
    · intro g hg
      simp only [groups_upto, List.range'_zero, List.foldl_nil, List.mem_singleton] at hg
      rw [hg]
      simp
    · simp [groups_upto]
  | succ k ih =>
    obtain ⟨hne, hflat, hgne, hlast, hchain⟩ := ih
    rw [groups_upto_succ]
    set gs := groups_upto times merge_gap k with hgs
    obtain ⟨init, g, hsplit⟩ : ∃ init g, gs = init ++ [g] :=
      ⟨gs.dropLast, gs.getLast hne, by rw [List.dropLast_append_getLast hne]⟩
    have hgl : gs.getLastD [] = g := by rw [hsplit, List.getLastD_concat]
    have hdl : gs.dropLast = init := by rw [hsplit, List.dropLast_concat]
    have hglast : g.getLastD 0 = k := by rw [← hgl]; exact hlast
    have hgmem : g ∈ gs := by rw [hsplit]; simp
    have hgne' : g ≠ [] := hgne g hgmem
    unfold groupStep
    rw [hgl, hdl, hglast]
    by_cases hc : times.getD (k + 1) 0 - times.getD k 0 ≤ merge_gap
    · rw [if_pos hc]
      have hflat' : init.flatten ++ g = List.range (k + 1) := by
        rw [hsplit] at hflat
        simpa using hflat
      refine ⟨by simp, ?_, ?_, ?_, ?_⟩
      · rw [List.range_succ, ← hflat']
        simp
      · intro g' hg'
        rcases List.mem_append.mp hg' with h | h
        · exact hgne g' (by rw [hsplit]; exact List.mem_append_left _ h)
        · rw [List.mem_singleton.mp h]
          simp
      · rw [List.getLastD_concat, List.getLastD_concat]
      · rw [hsplit] at hchain
        rw [List.chain'_append] at hchain ⊢
        refine ⟨hchain.1, by simp, ?_⟩
        intro x hx y hy
        rw [List.head?_cons, Option.mem_some_iff] at hy
        rw [← hy, headD_append_of_ne_nil hgne']
        exact hchain.2.2 x hx g (by simp)
    · rw [if_neg hc]
      refine ⟨by simp, ?_, ?_, ?_, ?_⟩
      · rw [List.range_succ, ← hflat]
        simp
      · intro g' hg'
        rcases List.mem_append.mp hg' with h | h
        · exact hgne g' h
        · rw [List.mem_singleton.mp h]
          simp
      · rw [List.getLastD_concat]
        rfl
      · rw [List.chain'_append]
        refine ⟨hchain, by simp, ?_⟩
        intro x hx y hy
        rw [List.head?_cons, Option.mem_some_iff] at hy
        have hxg : x = g := by
          rw [hsplit, List.getLast?_concat, Option.mem_some_iff] at hx
          exact hx.symm
        rw [← hy, hxg]
        simp only [List.headD_cons]
        rw [hglast]
        exact hc

lemma build_groups_ne_nil (times : List ℚ) (merge_gap : ℚ) :
    build_groups times merge_gap ≠ [] := by
  rw [build_groups_eq]
  exact (groups_upto_invariant times merge_gap _).1

lemma build_groups_flatten {times : List ℚ} (hne : times ≠ []) (merge_gap : ℚ) :
    (build_groups times merge_gap).flatten = List.range times.length := by
  have h := (groups_upto_invariant times merge_gap (times.length - 1)).2.1
  have hl : times.length - 1 + 1 = times.length := by
    have := List.length_pos.mpr hne
    omega
  rw [build_groups_eq, h, hl]

lemma mem_build_groups_ne_nil {times : List ℚ} {merge_gap : ℚ} {g : List ℕ}
    (hg : g ∈ build_groups times merge_gap) : g ≠ [] := by
  rw [build_groups_eq] at hg
  exact (groups_upto_invariant times merge_gap _).2.2.1 g hg

lemma build_groups_chain' (times : List ℚ) (merge_gap : ℚ) :
    List.Chain' (fun g₁ g₂ =>
      ¬ (times.getD (g₂.headD 0) 0 - times.getD (g₁.getLastD 0) 0 ≤ merge_gap))
      (build_groups times merge_gap) := by
  rw [build_groups_eq]
  exact (groups_upto_invariant times merge_gap _).2.2.2.2

lemma mem_build_groups_sublist {times : List ℚ} (hne : times ≠ []) {merge_gap : ℚ}
    {g : List ℕ} (hg : g ∈ build_groups times merge_gap) :
    g.Sublist (List.range times.length) := by
  have h := List.sublist_flatten_of_mem hg
  rwa [build_groups_flatten hne] at h

lemma mem_build_groups_pairwise {times : List ℚ} (hne : times ≠ []) {merge_gap : ℚ}
    {g : List ℕ} (hg : g ∈ build_groups times merge_gap) :
    g.Pairwise (· < ·) :=
  (List.pairwise_lt_range _).sublist (mem_build_groups_sublist hne hg)

lemma mem_build_groups_lt {times : List ℚ} (hne : times ≠ []) {merge_gap : ℚ}
    {g : List ℕ} (hg : g ∈ build_groups times merge_gap) {j : ℕ} (hj : j ∈ g) :
    j < times.length := by
  have := (mem_build_groups_sublist hne hg).subset hj
  simpa using this

lemma pairwise_headD_le {g : List ℕ} (hp : g.Pairwise (· < ·)) {j : ℕ} (hj : j ∈ g) :
    g.headD 0 ≤ j := by
  cases g with
  | nil => cases hj
  | cons a t =>
    rcases List.mem_cons.mp hj with rfl | h
    · simp
    · simpa using le_of_lt ((List.pairwise_cons.mp hp).1 j h)

lemma pairwise_le_getLastD {g : List ℕ} (hp : g.Pairwise (· < ·)) {j : ℕ} (hj : j ∈ g) :
    j ≤ g.getLastD 0 := by
  induction g with
  | nil => cases hj
  | cons a t ih =>
    cases t with
    | nil =>
      rcases List.mem_singleton.mp hj with rfl
      simp
    | cons b u =>
      have hball : ∀ x ∈ b :: u, a < x := (List.pairwise_cons.mp hp).1
      have hp' : (b :: u).Pairwise (· < ·) := (List.pairwise_cons.mp hp).2
      have hlast : (a :: b :: u).getLastD 0 = (b :: u).getLastD 0 := by simp
      rcases List.mem_cons.mp hj with rfl | h
      · rw [hlast]
        exact le_of_lt (hball _ (getLastD_mem (by simp) 0))
      · rw [hlast]
        exact ih hp' h

lemma build_groups_cross {times : List ℚ} (hne : times ≠ []) (merge_gap : ℚ) :
    (build_groups times merge_gap).Pairwise
      (fun g₁ g₂ => ∀ x ∈ g₁, ∀ y ∈ g₂, x < y) := by
  have hp : (build_groups times merge_gap).flatten.Pairwise (· < ·) := by
    rw [build_groups_flatten hne]
    exact List.pairwise_lt_range _
  exact (List.pairwise_flatten.mp hp).2

/-! ## Equivalence of the loop with the spec-worded clustering fold -/

lemma specGo_eq_foldl (times : List ℚ) (merge_gap : ℚ) :
    ∀ (rest cur : List ℕ) (fin : List (List ℕ)),
      specGo times merge_gap rest cur fin =
        rest.foldl (groupStep times merge_gap) (fin ++ [cur]) := by
  intro rest
  induction rest with
  | nil =>
    intro cur fin
    simp [specGo]
  | cons i rest ih =>
    intro cur fin
    simp only [specGo, List.foldl_cons]
    have hstep : groupStep times merge_gap (fin ++ [cur]) i =
        if times.getD i 0 - times.getD (cur.getLastD 0) 0 ≤ merge_gap
        then fin ++ [cur ++ [i]] else (fin ++ [cur]) ++ [[i]] := by
      unfold groupStep
      rw [List.getLastD_concat, List.dropLast_concat]
    rw [hstep]
    by_cases hc : times.getD i 0 - times.getD (cur.getLastD 0) 0 ≤ merge_gap
    · rw [if_pos hc, if_pos hc, ih (cur ++ [i]) fin]
    · rw [if_neg hc, if_neg hc, ih [i] (fin ++ [cur])]

lemma spec_clusters_eq_build_groups {times : List ℚ} (hne : times ≠ []) (merge_gap : ℚ) :
    spec_clusters times merge_gap = build_groups times merge_gap := by
  obtain ⟨m, hm⟩ : ∃ m, times.length = m + 1 :=
    ⟨times.length - 1, by have := List.length_pos.mpr hne; omega⟩
  have hrange : List.range times.length = 0 :: List.range' 1 (times.length - 1) := by
    rw [hm, List.range_eq_range', List.range'_succ]
    simp
  unfold spec_clusters
  rw [hrange]
  show specGo times merge_gap (List.range' 1 (times.length - 1)) [0] [] =
    build_groups times merge_gap
  rw [specGo_eq_foldl times merge_gap _ [0] []]
  rw [build_groups_eq]
  simp [groups_upto]

/-! ## Helper lemmas: `best_of` -/

lemma best_of_mem {heats : List ℚ} {g : List ℕ} (hg : g ≠ []) : best_of heats g ∈ g := by
  unfold best_of
  have hne : g.map (fun j => heats.getD j 0) ≠ [] := by simpa using hg
  have h := (np_argmax_spec hne).1
  rw [List.length_map] at h
  rw [List.getD_eq_getElem _ 0 h]
  exact List.getElem_mem h

lemma getD_map_heats (heats : List ℚ) (g : List ℕ) {idx : ℕ} (h : idx < g.length) :
    (g.map (fun j => heats.getD j 0)).getD idx 0 = heats.getD (g.getD idx 0) 0 := by
  rw [List.getD_eq_getElem _ 0 (by simpa using h), List.getD_eq_getElem _ 0 h]
  simp

lemma best_of_le {heats : List ℚ} {g : List ℕ} (hg : g ≠ []) {j : ℕ} (hj : j ∈ g) :
    heats.getD j 0 ≤ heats.getD (best_of heats g) 0 := by
  obtain ⟨idx, hidx, rfl⟩ := List.mem_iff_getElem.mp hj
  have hne : g.map (fun j => heats.getD j 0) ≠ [] := by simpa using hg
  have hspec := np_argmax_spec hne
  have hrlt : np_argmax (g.map (fun j => heats.getD j 0)) < g.length := by
    have := hspec.1
    rwa [List.length_map] at this
  have h := hspec.2.1 idx (by simpa using hidx)
  rw [getD_map_heats heats g hidx, getD_map_heats heats g hrlt] at h
  unfold best_of
  rw [List.getD_eq_getElem _ 0 hidx] at h
  exact h

lemma best_of_first_tie {heats : List ℚ} {g : List ℕ} (hg : g ≠ [])
    (hp : g.Pairwise (· < ·)) {j : ℕ} (hj : j ∈ g)
    (htie : heats.getD j 0 = heats.getD (best_of heats g) 0) :
    best_of heats g ≤ j := by
  obtain ⟨idx, hidx, rfl⟩ := List.mem_iff_getElem.mp hj
  have hne : g.map (fun j => heats.getD j 0) ≠ [] := by simpa using hg
  have hspec := np_argmax_spec hne
  set r := np_argmax (g.map (fun j => heats.getD j 0)) with hr
  have hrlt : r < g.length := by
    have := hspec.1
    rwa [List.length_map] at this
  have hbest : best_of heats g = g[r] := by
    unfold best_of
    rw [← hr, List.getD_eq_getElem _ 0 hrlt]
  have hle : r ≤ idx := by
    apply hspec.2.2 idx (by simpa using hidx)
    rw [getD_map_heats heats g hidx, getD_map_heats heats g hrlt]
    rw [List.getD_eq_getElem _ 0 hidx]
    rw [hbest] at htie
    rw [List.getD_eq_getElem _ 0 hrlt]
    exact htie
  rw [hbest]
  rcases lt_or_eq_of_le hle with h | h
  · exact le_of_lt (List.pairwise_iff_getElem.mp hp r idx hrlt hidx h)
  · rw [← List.getD_eq_getElem g 0 hrlt, ← List.getD_eq_getElem g 0 hidx, h]

lemma merge_spikes_eq {times : List ℚ} (hne : times ≠ []) (heats : List ℚ)
    (merge_gap : ℚ) :
    _merge_spikes times heats merge_gap =
      (build_groups times merge_gap).map (fun g =>
        ⟨round_to 2 (times.getD (best_of heats g) 0),
         round_to 4 (heats.getD (best_of heats g) 0)⟩) := by
  unfold _merge_spikes
  rw [if_neg (by simpa using hne)]

/-! ## Helper lemmas: the spike-candidate lists of the pipeline -/

lemma mem_spike_frames {rms pitch_var : List ℚ} {i : ℕ} :
    i ∈ spike_frames_of rms pitch_var ↔
      i < (heat_seq rms pitch_var).length ∧
        threshold_of rms pitch_var < (heat_seq rms pitch_var).getD i 0 := by
  unfold spike_frames_of
  rw [List.mem_filter, List.mem_range]
  simp

lemma spike_frames_pairwise (rms pitch_var : List ℚ) :
    (spike_frames_of rms pitch_var).Pairwise (· < ·) :=
  (List.pairwise_lt_range _).sublist (List.filter_sublist _)

lemma spike_times_length (rms pitch_var : List ℚ) :
    (spike_times_of rms pitch_var).length = (spike_frames_of rms pitch_var).length :=
  List.length_map ..

lemma spike_heats_length (rms pitch_var : List ℚ) :
    (spike_heats_of rms pitch_var).length = (spike_frames_of rms pitch_var).length :=
  List.length_map ..

lemma spike_times_getD (rms pitch_var : List ℚ) {j : ℕ}
    (hj : j < (spike_frames_of rms pitch_var).length) :
    (spike_times_of rms pitch_var).getD j 0 =
      frames_to_time ((spike_frames_of rms pitch_var).getD j 0) := by
  unfold spike_times_of
  rw [List.getD_eq_getElem _ 0 (by simpa using hj), List.getD_eq_getElem _ 0 hj]
  simp

lemma spike_heats_getD (rms pitch_var : List ℚ) {j : ℕ}
    (hj : j < (spike_frames_of rms pitch_var).length) :
    (spike_heats_of rms pitch_var).getD j 0 =
      (heat_seq rms pitch_var).getD ((spike_frames_of rms pitch_var).getD j 0) 0 := by
  unfold spike_heats_of
  rw [List.getD_eq_getElem _ 0 (by simpa using hj), List.getD_eq_getElem _ 0 hj]
  simp

lemma headD_mem {g : List ℕ} (h : g ≠ []) : g.headD 0 ∈ g := by
  cases g with
  | nil => exact absurd rfl h
  | cons a t => simp

lemma frames_getD_mono (rms pitch_var : List ℚ) {u v : ℕ} (huv : u ≤ v)
    (hv : v < (spike_frames_of rms pitch_var).length) :
    (spike_frames_of rms pitch_var).getD u 0 ≤ (spike_frames_of rms pitch_var).getD v 0 := by
  rcases lt_or_eq_of_le huv with h | rfl
  · rw [List.getD_eq_getElem _ 0 (lt_trans h hv), List.getD_eq_getElem _ 0 hv]
    exact le_of_lt (List.pairwise_iff_getElem.mp (spike_frames_pairwise rms pitch_var)
      u v (lt_trans h hv) hv h)
  · exact le_refl _

lemma frames_getD_strict_mono (rms pitch_var : List ℚ) {u v : ℕ} (huv : u < v)
    (hv : v < (spike_frames_of rms pitch_var).length) :
    (spike_frames_of rms pitch_var).getD u 0 < (spike_frames_of rms pitch_var).getD v 0 := by
  rw [List.getD_eq_getElem _ 0 (lt_trans huv hv), List.getD_eq_getElem _ 0 hv]
  exact List.pairwise_iff_getElem.mp (spike_frames_pairwise rms pitch_var)
    u v (lt_trans huv hv) hv huv

lemma frames_to_time_mono {a b : ℕ} (h : a ≤ b) : frames_to_time a ≤ frames_to_time b := by
  unfold frames_to_time SR HOP_LENGTH
  have : (a : ℚ) ≤ (b : ℚ) := by exact_mod_cast h
  nlinarith

/-- A gap of more than half a second between two frame times is at least 22
frame hops, i.e. at least `22 * 512 / 22050` seconds — the granularity fact
behind the output-gap invariant surviving 2-decimal rounding. -/
lemma frame_gap_ge {a b : ℕ} (h : MERGE_SECONDS < frames_to_time b - frames_to_time a) :
    (11264 : ℚ) / 22050 ≤ frames_to_time b - frames_to_time a := by
  unfold frames_to_time MERGE_SECONDS SR HOP_LENGTH at h
  unfold frames_to_time SR HOP_LENGTH
  have hab : a < b := by
    by_contra hc
    push_neg at hc
    have : (b : ℚ) ≤ (a : ℚ) := by exact_mod_cast hc
    nlinarith
  have hd : 22 ≤ b - a := by
    by_contra hc
    push_neg at hc
    have hba : ((b - a : ℕ) : ℚ) ≤ 21 := by exact_mod_cast Nat.le_of_lt_succ hc
    have hcast : ((b - a : ℕ) : ℚ) = (b : ℚ) - (a : ℚ) := by
      push_cast [Nat.cast_sub (le_of_lt hab)]
      ring
    rw [hcast] at hba
    nlinarith
  have : (22 : ℚ) ≤ (b : ℚ) - (a : ℚ) := by
    have hcast : ((b - a : ℕ) : ℚ) = (b : ℚ) - (a : ℚ) := by
      push_cast [Nat.cast_sub (le_of_lt hab)]
      ring
    rw [← hcast]
    exact_mod_cast hd
  nlinarith

lemma chain'_imp_mem {α : Type} {R S : α → α → Prop} :
    ∀ {l : List α}, List.Chain' R l →
      (∀ a b, a ∈ l → b ∈ l → R a b → S a b) → List.Chain' S l := by
  intro l
  induction l with
  | nil => intro _ _; exact List.chain'_nil
  | cons x xs ih =>
    intro h himp
    cases xs with
    | nil => simp
    | cons y ys =>
      rw [List.chain'_cons] at h ⊢
      exact ⟨himp x y (by simp) (by simp) h.1,
        ih h.2 (fun a b ha hb hr => himp a b (by simp [ha]) (by simp [hb]) hr)⟩

lemma chain'_pairwise {α : Type} {R : α → α → Prop}
    (htr : ∀ a b c, R a b → R b c → R a c) :
    ∀ {l : List α}, List.Chain' R l → l.Pairwise R := by
  intro l
  induction l with
  | nil => intro _; exact List.Pairwise.nil
  | cons a l ih =>
    intro h
    have h1 : List.Chain' R l := (List.chain'_cons'.mp h).2
    have hp := ih h1
    refine List.pairwise_cons.mpr ⟨?_, hp⟩
    intro b hb
    cases l with
    | nil => cases hb
    | cons c t =>
      have hac : R a c := (List.chain'_cons.mp h).1
      rcases List.mem_cons.mp hb with rfl | hbt
      · exact hac
      · exact htr a c b hac ((List.pairwise_cons.mp hp).1 b hbt)

/-! ## Helper lemmas: python slicing and the variability window -/

lemma filter_range_eq_range' (lo hi : ℕ) :
    ∀ n : ℕ, (List.range n).filter (fun j => decide (lo ≤ j) && decide (j < hi)) =
      List.range' lo (min hi n - lo) := by
  intro n
  induction n with
  | zero => simp
  | succ n ih =>
    rw [List.range_succ, List.filter_append, ih]
    by_cases h1 : lo ≤ n
    · by_cases h2 : n < hi
      · have hf : List.filter (fun j => decide (lo ≤ j) && decide (j < hi)) [n] = [n] := by
          simp [h1, h2]
        rw [hf]
        have hmin1 : min hi (n + 1) - lo = (min hi n - lo) + 1 := by omega
        rw [hmin1, List.range'_concat]
        have he : lo + 1 * (min hi n - lo) = n := by omega
        rw [he]
      · have hf : List.filter (fun j => decide (lo ≤ j) && decide (j < hi)) [n] = [] := by
          simp [h2]
        rw [hf, List.append_nil]
        have : min hi (n + 1) - lo = min hi n - lo := by omega
        rw [this]
    · have hf : List.filter (fun j => decide (lo ≤ j) && decide (j < hi)) [n] = [] := by
        simp [h1]
      rw [hf, List.append_nil]
      have : min hi (n + 1) - lo = min hi n - lo := by omega
      rw [this]

lemma pySlice_eq_map_range' (xs : List ℚ) (lo hi : ℕ) :
    pySlice xs lo hi = (List.range' lo (min hi xs.length - lo)).map
      (fun j => xs.getD j 0) := by
  apply List.ext_getElem
  · simp [pySlice]
  · intro i h1 h2
    have hlen : ((xs.take hi).drop lo).length = min hi xs.length - lo := by
      simp [pySlice]
    have hbound : lo + i < xs.length := by
      simp only [pySlice] at h1
      simp at h1
      omega
    show ((xs.take hi).drop lo)[i] = _
    rw [List.getElem_drop, List.getElem_take]
    rw [List.getElem_map, List.getElem_range']
    rw [List.getD_eq_getElem _ 0 (by omega : lo + 1 * i < xs.length)]
    simp

lemma pySlice_eq_specWindow (xs : List ℚ) (i : ℕ) :
    pySlice xs (i - window) (i + window) = specWindow xs i := by
  unfold specWindow
  rw [filter_range_eq_range' (i - window) (i + window) xs.length,
    ← pySlice_eq_map_range']

lemma foldl_min_nonneg : ∀ (t : List ℚ) (a : ℚ), 0 ≤ a → (∀ x ∈ t, 0 ≤ x) →
    0 ≤ t.foldl min a := by
  intro t
  induction t with
  | nil => intro a ha _; simpa using ha
  | cons x xs ih =>
    intro a ha hall
    simp only [List.foldl_cons]
    exact ih (min a x) (le_min ha (hall x (by simp))) (fun y hy => hall y (by simp [hy]))

lemma listMin_nonneg {xs : List ℚ} (h : ∀ x ∈ xs, 0 ≤ x) : 0 ≤ listMin xs := by
  cases xs with
  | nil => simp [listMin]
  | cons a t =>
    exact foldl_min_nonneg t a (h a (by simp)) (fun y hy => h y (by simp [hy]))

lemma getD_replicate_zero (n i : ℕ) : (List.replicate n (0 : ℚ)).getD i 0 = 0 := by
  rcases lt_or_ge i n with h | h
  · rw [List.getD_eq_getElem _ 0 (by simpa using h)]
    simp
  · rw [List.getD_eq_default _ 0 (by simpa using h)]

/-! ## Claim theorems -/

/-- C1: the spike merger clusters the time-sorted candidates greedily by the
chained-gap rule: the loop of `_merge_spikes` builds exactly the clusters of
the spec's fold, which starts a cluster at the first candidate and appends a
candidate to the current cluster iff its time minus the time of the last
candidate added to that cluster is ≤ the merge gap, else starts a new
cluster.  In particular candidates at times 0.0s, 0.4s, 0.8s, 2.0s form the
clusters `[[0,1,2],[3]]` and produce exactly two MergedSpike entries. -/
theorem C1_merge_chained_gap (times : List ℚ) (merge_gap : ℚ) (hne : times ≠ []) :
    build_groups times merge_gap = spec_clusters times merge_gap ∧
    build_groups [0, 2/5, 4/5, 2] MERGE_SECONDS = [[0, 1, 2], [3]] ∧
    (_merge_spikes [0, 2/5, 4/5, 2] [1, 1, 1, 1] MERGE_SECONDS).length = 2 :=
  ⟨(spec_clusters_eq_build_groups hne merge_gap).symm,
    by norm_num [build_groups, groupStep, MERGE_SECONDS, List.range'],
    by norm_num [_merge_spikes, build_groups, groupStep, MERGE_SECONDS, List.range']⟩

/-- Witness for C1 at the concrete candidate list `[0, 1]`. -/
theorem C1_witness :
    build_groups [0, 1] MERGE_SECONDS = spec_clusters [0, 1] MERGE_SECONDS ∧
    build_groups [0, 2/5, 4/5, 2] MERGE_SECONDS = [[0, 1, 2], [3]] ∧
    (_merge_spikes [0, 2/5, 4/5, 2] [1, 1, 1, 1] MERGE_SECONDS).length = 2 :=
  C1_merge_chained_gap [0, 1] MERGE_SECONDS (by simp)

/-- C3: for every frame `i` of the aligned sequences,
`heat[i] = loud_norm[i] * (1 + pitchvar_norm[i])`, where each factor comes
from min–max normalization of its whole sequence: values lie in `[0,1]`, a
non-constant sequence maps `x` to `(x - min) / (max - min)`, and a sequence
with `max = min` normalizes to the all-zero sequence (no division error). -/
theorem C3_heat_fusion (rms pitch_var : List ℚ) (i : ℕ)
    (hi : i < (heat_seq rms pitch_var).length) :
    (heat_seq rms pitch_var).getD i 0 =
      (_normalize (aligned rms pitch_var).1).getD i 0 *
        (1 + (_normalize (aligned rms pitch_var).2).getD i 0) ∧
    (∀ xs : List ℚ, ∀ y ∈ _normalize xs, 0 ≤ y ∧ y ≤ 1) ∧
    (∀ xs : List ℚ, listMax xs ≠ listMin xs → ∀ j, j < xs.length →
      (_normalize xs).getD j 0 = (xs.getD j 0 - listMin xs) / (listMax xs - listMin xs)) ∧
    (∀ xs : List ℚ, listMax xs = listMin xs →
      _normalize xs = List.replicate xs.length 0) :=
  ⟨getD_heat_seq rms pitch_var hi, fun _ _ hy => mem_normalize_bounds hy,
    fun _ h _ hj => getD_normalize h hj, fun _ h => normalize_const h⟩

/-- Witness for C3 at `rms = [2,3]`, `pitch_var = [5,6]`, frame 0. -/
theorem C3_witness :
    (heat_seq [2, 3] [5, 6]).getD 0 0 =
      (_normalize (aligned [2, 3] [5, 6]).1).getD 0 0 *
        (1 + (_normalize (aligned [2, 3] [5, 6]).2).getD 0 0) ∧
    (∀ xs : List ℚ, ∀ y ∈ _normalize xs, 0 ≤ y ∧ y ≤ 1) ∧
    (∀ xs : List ℚ, listMax xs ≠ listMin xs → ∀ j, j < xs.length →
      (_normalize xs).getD j 0 = (xs.getD j 0 - listMin xs) / (listMax xs - listMin xs)) ∧
    (∀ xs : List ℚ, listMax xs = listMin xs →
      _normalize xs = List.replicate xs.length 0) :=
  C3_heat_fusion [2, 3] [5, 6] 0 (by rw [length_heat_seq]; norm_num)

/-- C4: within each cluster produced by the merger, the representative is the
candidate of maximum heat; among equal-heat maxima the first in scan order
(and hence, for monotone times, the earliest-time one) is chosen, and the
corresponding rounded record is what `_merge_spikes` reports. -/
theorem C4_representative_max_first (times heats : List ℚ) (merge_gap : ℚ)
    (hne : times ≠ []) (g : List ℕ) (hg : g ∈ build_groups times merge_gap) :
    best_of heats g ∈ g ∧
    (∀ j ∈ g, heats.getD j 0 ≤ heats.getD (best_of heats g) 0) ∧
    (∀ j ∈ g, heats.getD j 0 = heats.getD (best_of heats g) 0 → best_of heats g ≤ j) ∧
    (∀ j ∈ g, heats.getD j 0 = heats.getD (best_of heats g) 0 →
      (∀ u v : ℕ, u ≤ v → times.getD u 0 ≤ times.getD v 0) →
      times.getD (best_of heats g) 0 ≤ times.getD j 0) ∧
    (⟨round_to 2 (times.getD (best_of heats g) 0),
      round_to 4 (heats.getD (best_of heats g) 0)⟩ : MergedSpike) ∈
      _merge_spikes times heats merge_gap := by
  have hgne : g ≠ [] := mem_build_groups_ne_nil hg
  have hp : g.Pairwise (· < ·) := mem_build_groups_pairwise hne hg
  refine ⟨best_of_mem hgne, fun j hj => best_of_le hgne hj,
    fun j hj htie => best_of_first_tie hgne hp hj htie, ?_, ?_⟩
  · intro j hj htie hmono
    exact hmono _ _ (best_of_first_tie hgne hp hj htie)
  · rw [merge_spikes_eq hne heats merge_gap]
    exact List.mem_map.mpr ⟨g, hg, rfl⟩

/-- Witness for C4 at times `[0, 1/4]`, heats `[1, 1]` (an equal-heat tie),
cluster `[0, 1]`. -/
theorem C4_witness :
    best_of [1, 1] [0, 1] ∈ [0, 1] ∧
    (∀ j ∈ [0, 1], ([1, 1] : List ℚ).getD j 0 ≤ ([1, 1] : List ℚ).getD (best_of [1, 1] [0, 1]) 0) ∧
    (∀ j ∈ [0, 1], ([1, 1] : List ℚ).getD j 0 = ([1, 1] : List ℚ).getD (best_of [1, 1] [0, 1]) 0 →
      best_of [1, 1] [0, 1] ≤ j) ∧
    (∀ j ∈ [0, 1], ([1, 1] : List ℚ).getD j 0 = ([1, 1] : List ℚ).getD (best_of [1, 1] [0, 1]) 0 →
      (∀ u v : ℕ, u ≤ v → ([0, 1/4] : List ℚ).getD u 0 ≤ ([0, 1/4] : List ℚ).getD v 0) →
      ([0, 1/4] : List ℚ).getD (best_of [1, 1] [0, 1]) 0 ≤ ([0, 1/4] : List ℚ).getD j 0) ∧
    (⟨round_to 2 (([0, 1/4] : List ℚ).getD (best_of [1, 1] [0, 1]) 0),
      round_to 4 (([1, 1] : List ℚ).getD (best_of [1, 1] [0, 1]) 0)⟩ : MergedSpike) ∈
      _merge_spikes [0, 1/4] [1, 1] MERGE_SECONDS :=
  C4_representative_max_first [0, 1/4] [1, 1] MERGE_SECONDS (by simp) [0, 1]
    (by norm_num [build_groups, groupStep, MERGE_SECONDS, List.range'])

/-- C6: for every frame `i`, the pitch-variability stage applies its
standard-deviation primitive `σ` to exactly the effective-pitch values of the
symmetric window of half-width `W = 10` around `i` clipped to the sequence
bounds (indices `max(0, i-W) ≤ j < i+W`), a truncated window at the edges
(its length is `min (i+W) n - (i-W)`, not `2W`); the effective pitch is
`pitch_hz[j]` when `voiced[j]`, else `0`.  `σ` is universally quantified: the
stage is `σ`-pointwise on the spec's window for any primitive, in particular
for numpy's `std = sqrt ∘ np_var`. -/
theorem C6_pitch_variability_window (σ : List ℚ → ℚ) (f0 : List ℚ) (voiced : List Bool)
    (i : ℕ) (hi : i < (f0_safe f0 voiced).length) :
    (pitch_var_list σ f0 voiced).getD i 0 = σ (specWindow (f0_safe f0 voiced) i) ∧
    (specWindow (f0_safe f0 voiced) i).length =
      min (i + window) (f0_safe f0 voiced).length - (i - window) ∧
    (∀ j, j < f0.length → j < voiced.length →
      (f0_safe f0 voiced).getD j 0 =
        if voiced.getD j false then f0.getD j 0 else 0) := by
  refine ⟨?_, ?_, ?_⟩
  · have hlen : (pitch_var_list σ f0 voiced).length = (f0_safe f0 voiced).length := by
      simp [pitch_var_list]
    rw [List.getD_eq_getElem _ 0 (by rw [hlen]; exact hi)]
    unfold pitch_var_list
    rw [List.getElem_map, List.getElem_range, pySlice_eq_specWindow]
  · unfold specWindow
    rw [List.length_map, filter_range_eq_range', List.length_range']
  · intro j hjf hjv
    have hjs : j < (f0_safe f0 voiced).length := by
      simp [f0_safe]
      omega
    rw [List.getD_eq_getElem _ 0 hjs, List.getD_eq_getElem _ 0 hjf,
      List.getD_eq_getElem _ false hjv]
    simp [f0_safe]

/-- Witness for C6 with `σ = np_var`, `f0 = [100, 200, 300]`,
`voiced = [true, false, true]`, frame 0. -/
theorem C6_witness :
    (pitch_var_list np_var [100, 200, 300] [true, false, true]).getD 0 0 =
      np_var (specWindow (f0_safe [100, 200, 300] [true, false, true]) 0) ∧
    (specWindow (f0_safe [100, 200, 300] [true, false, true]) 0).length =
      min (0 + window) (f0_safe [100, 200, 300] [true, false, true]).length - (0 - window) ∧
    (∀ j, j < ([100, 200, 300] : List ℚ).length → j < [true, false, true].length →
      (f0_safe [100, 200, 300] [true, false, true]).getD j 0 =
        if [true, false, true].getD j false then ([100, 200, 300] : List ℚ).getD j 0 else 0) :=
  C6_pitch_variability_window np_var [100, 200, 300] [true, false, true] 0 (by decide)

/-- C8: the pipeline truncates the loudness and pitch-variability sequences to
the shorter length, preserving alignment by index, for every pair of input
lengths (both truncations are total functions, so no input errors; the heat
sequence then has exactly the common length). -/
theorem C8_truncation_alignment (rms pitch_var : List ℚ) :
    (aligned rms pitch_var).1.length = min rms.length pitch_var.length ∧
    (aligned rms pitch_var).2.length = min rms.length pitch_var.length ∧
    (heat_seq rms pitch_var).length = min rms.length pitch_var.length ∧
    (∀ i, i < min rms.length pitch_var.length →
      (aligned rms pitch_var).1.getD i 0 = rms.getD i 0 ∧
      (aligned rms pitch_var).2.getD i 0 = pitch_var.getD i 0) := by
  refine ⟨by simp [aligned], by simp [aligned], length_heat_seq rms pitch_var, ?_⟩
  intro i hi
  have h1 : i < rms.length := lt_of_lt_of_le hi (min_le_left ..)
  have h2 : i < pitch_var.length := lt_of_lt_of_le hi (min_le_right ..)
  constructor
  · rw [List.getD_eq_getElem _ 0 (by simp [aligned]; omega),
      List.getD_eq_getElem _ 0 h1]
    simp [aligned]
  · rw [List.getD_eq_getElem _ 0 (by simp [aligned]; omega),
      List.getD_eq_getElem _ 0 h2]
    simp [aligned]

/-- Witness for C8 at mismatched lengths 3 and 2, checking index 1, plus the
zero-length case. -/
theorem C8_witness :
    ((aligned [1, 2, 3] [4, 5]).1.getD 1 0 = ([1, 2, 3] : List ℚ).getD 1 0 ∧
      (aligned [1, 2, 3] [4, 5]).2.getD 1 0 = ([4, 5] : List ℚ).getD 1 0) ∧
    (heat_seq [] [] ).length = min ([] : List ℚ).length ([] : List ℚ).length :=
  ⟨(C8_truncation_alignment [1, 2, 3] [4, 5]).2.2.2 1 (by decide),
    (C8_truncation_alignment [] []).2.2.1⟩

/-- C2 counterexample: on an empty heat sequence the claim's "empty candidate
set rather than an error" fails — `np.percentile` raises `IndexError` on an
empty array, so the run errors (modelled as `none`), it does not return `[]`. -/
theorem C2_counterexample : detect_spikes [] [] = none := rfl

/-- C2 (amended): for a NONEMPTY heat sequence, the threshold is the 95th
percentile with linear interpolation between order statistics; exactly the
frames with heat strictly above it are selected, a frame whose heat equals
the threshold is never selected, and an empty selection yields `some []`
(not an error); on an empty heat sequence the pipeline errors instead. -/
theorem C2_percentile_threshold (rms pitch_var : List ℚ)
    (hne : heat_seq rms pitch_var ≠ []) :
    threshold_of rms pitch_var =
      percentileSpec (heat_seq rms pitch_var) SPIKE_PERCENTILE ∧
    (∀ i, i ∈ spike_frames_of rms pitch_var ↔
      i < (heat_seq rms pitch_var).length ∧
        threshold_of rms pitch_var < (heat_seq rms pitch_var).getD i 0) ∧
    (∀ i, (heat_seq rms pitch_var).getD i 0 = threshold_of rms pitch_var →
      i ∉ spike_frames_of rms pitch_var) ∧
    (spike_frames_of rms pitch_var = [] → detect_spikes rms pitch_var = some []) ∧
    (detect_spikes rms pitch_var).isSome = true := by
  refine ⟨?_, fun i => mem_spike_frames, ?_, ?_, ?_⟩
  · unfold threshold_of SPIKE_PERCENTILE
    exact np_percentile_eq_spec hne (by norm_num) (by norm_num)
  · intro i hi hmem
    have h := (mem_spike_frames.mp hmem).2
    rw [hi] at h
    exact lt_irrefl _ h
  · intro h
    unfold detect_spikes
    rw [if_neg hne, if_pos h]
  · unfold detect_spikes
    rw [if_neg hne]
    by_cases h : spike_frames_of rms pitch_var = []
    · rw [if_pos h]
      rfl
    · rw [if_neg h]
      rfl

/-- Witness for C2 at `rms = [1,2]`, `pitch_var = [0,0]`. -/
theorem C2_witness :
    threshold_of [1, 2] [0, 0] =
      percentileSpec (heat_seq [1, 2] [0, 0]) SPIKE_PERCENTILE ∧
    (∀ i, i ∈ spike_frames_of [1, 2] [0, 0] ↔
      i < (heat_seq [1, 2] [0, 0]).length ∧
        threshold_of [1, 2] [0, 0] < (heat_seq [1, 2] [0, 0]).getD i 0) ∧
    (∀ i, (heat_seq [1, 2] [0, 0]).getD i 0 = threshold_of [1, 2] [0, 0] →
      i ∉ spike_frames_of [1, 2] [0, 0]) ∧
    (spike_frames_of [1, 2] [0, 0] = [] → detect_spikes [1, 2] [0, 0] = some []) ∧
    (detect_spikes [1, 2] [0, 0]).isSome = true :=
  C2_percentile_threshold [1, 2] [0, 0]
    (List.ne_nil_of_length_pos (by rw [length_heat_seq]; norm_num))

/-- C7 counterexample: heat can be zero at a frame whose loudness is nonzero
(the frame of minimal loudness normalizes to 0), so "heat[i] is zero only
when the loudness at frame i is zero" fails as stated: with loudness
`[2, 3]`, frame 0 has loudness 2 but heat 0. -/
theorem C7_counterexample :
    (heat_seq [2, 3] [7, 7]).getD 0 0 = 0 ∧ ([2, 3] : List ℚ).getD 0 0 ≠ 0 := by
  constructor
  · norm_num [heat_seq, aligned, _normalize, listMin, listMax, min_def, max_def,
      List.replicate]
  · norm_num

/-- C7 (amended): heat is zero exactly when the NORMALIZED loudness is zero;
pitch variability amplifies, never replaces, loudness
(`loud_norm[i] ≤ heat[i] ≤ 2·loud_norm[i]`); and for nonnegative loudness a
silent frame (loudness 0) has zero heat and is never selected as a spike. -/
theorem C7_heat_zero_amplify (rms pitch_var : List ℚ) (i : ℕ)
    (hi : i < (heat_seq rms pitch_var).length) :
    ((heat_seq rms pitch_var).getD i 0 = 0 ↔
      (_normalize (aligned rms pitch_var).1).getD i 0 = 0) ∧
    ((_normalize (aligned rms pitch_var).1).getD i 0 ≤ (heat_seq rms pitch_var).getD i 0 ∧
      (heat_seq rms pitch_var).getD i 0 ≤
        2 * (_normalize (aligned rms pitch_var).1).getD i 0) ∧
    ((∀ x ∈ rms, 0 ≤ x) → (aligned rms pitch_var).1.getD i 0 = 0 →
      (heat_seq rms pitch_var).getD i 0 = 0 ∧ i ∉ spike_frames_of rms pitch_var) := by
  have h1 : i < (_normalize (aligned rms pitch_var).1).length := by
    simp only [heat_seq, List.length_zipWith, lt_min_iff] at hi
    exact hi.1
  have h2 : i < (_normalize (aligned rms pitch_var).2).length := by
    simp only [heat_seq, List.length_zipWith, lt_min_iff] at hi
    exact hi.2
  have hA : 0 ≤ (_normalize (aligned rms pitch_var).1).getD i 0 ∧
      (_normalize (aligned rms pitch_var).1).getD i 0 ≤ 1 := by
    rw [List.getD_eq_getElem _ 0 h1]
    exact mem_normalize_bounds (List.getElem_mem h1)
  have hB : 0 ≤ (_normalize (aligned rms pitch_var).2).getD i 0 ∧
      (_normalize (aligned rms pitch_var).2).getD i 0 ≤ 1 := by
    rw [List.getD_eq_getElem _ 0 h2]
    exact mem_normalize_bounds (List.getElem_mem h2)
  have hform := getD_heat_seq rms pitch_var hi
  have hAzero : (∀ x ∈ rms, 0 ≤ x) → (aligned rms pitch_var).1.getD i 0 = 0 →
      (_normalize (aligned rms pitch_var).1).getD i 0 = 0 := by
    intro hnn hz
    have hilen : i < (aligned rms pitch_var).1.length := by
      rwa [length_normalize] at h1
    have hsub : ∀ x ∈ (aligned rms pitch_var).1, 0 ≤ x := by
      intro x hx
      exact hnn x (List.take_subset _ _ hx)
    have hmemi : (aligned rms pitch_var).1.getD i 0 ∈ (aligned rms pitch_var).1 := by
      rw [List.getD_eq_getElem _ 0 hilen]
      exact List.getElem_mem hilen
    have hmin0 : listMin (aligned rms pitch_var).1 = 0 := by
      have hle : listMin (aligned rms pitch_var).1 ≤ 0 := by
        have := listMin_le_mem hmemi
        rwa [hz] at this
      exact le_antisymm hle (listMin_nonneg hsub)
    by_cases hc : listMax (aligned rms pitch_var).1 = listMin (aligned rms pitch_var).1
    · rw [normalize_const hc, getD_replicate_zero]
    · rw [getD_normalize hc hilen, hz, hmin0]
      simp
  refine ⟨?_, ?_, ?_⟩
  · rw [hform]
    constructor
    · intro h
      rcases mul_eq_zero.mp h with h | h
      · exact h
      · nlinarith [hB.1]
    · intro h
      rw [h]
      ring
  · rw [hform]
    constructor
    · nlinarith [hA.1, hB.1]
    · nlinarith [hA.1, hB.2]
  · intro hnn hz
    have hA0 := hAzero hnn hz
    have hheat0 : (heat_seq rms pitch_var).getD i 0 = 0 := by
      rw [hform, hA0]
      ring
    refine ⟨hheat0, ?_⟩
    intro hmem
    have hgt := (mem_spike_frames.mp hmem).2
    rw [hheat0] at hgt
    have hthr : 0 ≤ threshold_of rms pitch_var := by
      unfold threshold_of SPIKE_PERCENTILE
      exact np_percentile_nonneg (List.ne_nil_of_length_pos (by omega))
        (by norm_num) (by norm_num)
        (fun x hx => (heat_seq_mem_bounds hx).1)
    exact absurd hgt (not_lt.mpr hthr)

/-- Witness for C7 at `rms = [0, 5]` (a silent frame plus a loud frame),
`pitch_var = [9, 9]`, frame 0. -/
theorem C7_witness :
    ((heat_seq [0, 5] [9, 9]).getD 0 0 = 0 ↔
      (_normalize (aligned [0, 5] [9, 9]).1).getD 0 0 = 0) ∧
    ((_normalize (aligned [0, 5] [9, 9]).1).getD 0 0 ≤ (heat_seq [0, 5] [9, 9]).getD 0 0 ∧
      (heat_seq [0, 5] [9, 9]).getD 0 0 ≤
        2 * (_normalize (aligned [0, 5] [9, 9]).1).getD 0 0) ∧
    ((∀ x ∈ ([0, 5] : List ℚ), 0 ≤ x) → (aligned [0, 5] [9, 9]).1.getD 0 0 = 0 →
      (heat_seq [0, 5] [9, 9]).getD 0 0 = 0 ∧ 0 ∉ spike_frames_of [0, 5] [9, 9]) :=
  C7_heat_zero_amplify [0, 5] [9, 9] 0 (by rw [length_heat_seq]; norm_num)

/-- C9: min–max normalization is invariant under scaling by a positive
constant, hence scaling the whole loudness sequence by `c > 0` leaves the
post-normalization heat sequence, the selected spike frames, and the entire
pipeline output identical. -/
theorem C9_scaling_invariance (xs : List ℚ) (c : ℚ) (hc : 0 < c)
    (_hnc : ∃ a ∈ xs, ∃ b ∈ xs, a ≠ b) (rms pitch_var : List ℚ) :
    _normalize (xs.map (fun x => c * x)) = _normalize xs ∧
    heat_seq (rms.map (fun x => c * x)) pitch_var = heat_seq rms pitch_var ∧
    spike_frames_of (rms.map (fun x => c * x)) pitch_var =
      spike_frames_of rms pitch_var ∧
    detect_spikes (rms.map (fun x => c * x)) pitch_var =
      detect_spikes rms pitch_var := by
  have hheat : heat_seq (rms.map (fun x => c * x)) pitch_var =
      heat_seq rms pitch_var := by
    simp only [heat_seq, aligned, List.length_map]
    rw [← List.map_take, normalize_map_mul c hc]
  have hframes : spike_frames_of (rms.map (fun x => c * x)) pitch_var =
      spike_frames_of rms pitch_var := by
    unfold spike_frames_of threshold_of
    rw [hheat]
  refine ⟨normalize_map_mul c hc xs, hheat, hframes, ?_⟩
  unfold detect_spikes spike_times_of spike_heats_of
  rw [hheat, hframes]

/-- Witness for C9 at `xs = [1, 2]`, `c = 3`, `rms = [0, 1]`,
`pitch_var = [0, 0]`. -/
theorem C9_witness :
    _normalize (([1, 2] : List ℚ).map (fun x => 3 * x)) = _normalize [1, 2] ∧
    heat_seq (([0, 1] : List ℚ).map (fun x => 3 * x)) [0, 0] = heat_seq [0, 1] [0, 0] ∧
    spike_frames_of (([0, 1] : List ℚ).map (fun x => 3 * x)) [0, 0] =
      spike_frames_of [0, 1] [0, 0] ∧
    detect_spikes (([0, 1] : List ℚ).map (fun x => 3 * x)) [0, 0] =
      detect_spikes [0, 1] [0, 0] :=
  C9_scaling_invariance [1, 2] 3 (by norm_num)
    ⟨1, by simp, 2, by simp, by norm_num⟩ [0, 1] [0, 0]

/-- C10: every heat value lies in `[0, 2]`, and the unrounded intensity of
every reported MergedSpike (the heat of the representative frame of each
cluster) is strictly greater than the 95th-percentile threshold and at most
2. -/
theorem C10_intensity_bounds (rms pitch_var : List ℚ) :
    (∀ x ∈ heat_seq rms pitch_var, 0 ≤ x ∧ x ≤ 2) ∧
    (spike_times_of rms pitch_var ≠ [] →
      ∀ g ∈ build_groups (spike_times_of rms pitch_var) MERGE_SECONDS,
        threshold_of rms pitch_var <
          (spike_heats_of rms pitch_var).getD
            (best_of (spike_heats_of rms pitch_var) g) 0 ∧
        (spike_heats_of rms pitch_var).getD
          (best_of (spike_heats_of rms pitch_var) g) 0 ≤ 2) := by
  refine ⟨fun x hx => heat_seq_mem_bounds hx, ?_⟩
  intro hne g hg
  have hgne : g ≠ [] := mem_build_groups_ne_nil hg
  have hbmem : best_of (spike_heats_of rms pitch_var) g ∈ g := best_of_mem hgne
  have hblt : best_of (spike_heats_of rms pitch_var) g <
      (spike_frames_of rms pitch_var).length := by
    have h := mem_build_groups_lt hne hg hbmem
    rwa [spike_times_length] at h
  rw [spike_heats_getD rms pitch_var hblt]
  have hFmem : (spike_frames_of rms pitch_var).getD
      (best_of (spike_heats_of rms pitch_var) g) 0 ∈ spike_frames_of rms pitch_var := by
    rw [List.getD_eq_getElem _ 0 hblt]
    exact List.getElem_mem hblt
  obtain ⟨hFlt, hFgt⟩ := mem_spike_frames.mp hFmem
  refine ⟨hFgt, ?_⟩
  have hmem : (heat_seq rms pitch_var).getD
      ((spike_frames_of rms pitch_var).getD
        (best_of (spike_heats_of rms pitch_var) g) 0) 0 ∈ heat_seq rms pitch_var := by
    rw [List.getD_eq_getElem _ 0 hFlt]
    exact List.getElem_mem hFlt
  exact (heat_seq_mem_bounds hmem).2

/-- Witness for C10 at `rms = [0, 1]`, `pitch_var = [0, 0]` (one spike frame,
one cluster `[0]`). -/
theorem C10_witness :
    (∀ x ∈ heat_seq [0, 1] [0, 0], 0 ≤ x ∧ x ≤ 2) ∧
    (threshold_of [0, 1] [0, 0] <
      (spike_heats_of [0, 1] [0, 0]).getD
        (best_of (spike_heats_of [0, 1] [0, 0]) [0]) 0 ∧
      (spike_heats_of [0, 1] [0, 0]).getD
        (best_of (spike_heats_of [0, 1] [0, 0]) [0]) 0 ≤ 2) := by
  have htimes : spike_times_of [0, 1] [0, 0] = [512 / 22050] := by
    norm_num [spike_times_of, frames_to_time, HOP_LENGTH, SR, spike_frames_of,
      threshold_of, np_percentile, heat_seq, aligned, _normalize, listMin, listMax,
      min_def, max_def, SPIKE_PERCENTILE, List.insertionSort, List.orderedInsert,
      Int.fract, List.range_succ, List.replicate]
  have hne : spike_times_of [0, 1] [0, 0] ≠ [] := by
    rw [htimes]
    simp
  have hg : [0] ∈ build_groups (spike_times_of [0, 1] [0, 0]) MERGE_SECONDS := by
    rw [htimes]
    norm_num [build_groups, groupStep, MERGE_SECONDS, List.range']
  exact ⟨(C10_intensity_bounds [0, 1] [0, 0]).1,
    (C10_intensity_bounds [0, 1] [0, 0]).2 hne [0] hg⟩

/-- C5: for every input on which the pipeline returns a result, the output is
an ordered sequence of MergedSpike records ascending in (reported, rounded)
seconds, and no two entries lie within the 0.5-second merge gap of each
other: their reported seconds differ by more than the merge gap. -/
theorem C5_output_sorted_gap (rms pitch_var : List ℚ) (out : List MergedSpike)
    (h : detect_spikes rms pitch_var = some out) :
    out.Pairwise (fun a b => a.seconds < b.seconds ∧
      MERGE_SECONDS < b.seconds - a.seconds) := by
  unfold detect_spikes at h
  by_cases h1 : heat_seq rms pitch_var = []
  · rw [if_pos h1] at h
    cases h
  rw [if_neg h1] at h
  by_cases h2 : spike_frames_of rms pitch_var = []
  · rw [if_pos h2] at h
    obtain rfl := Option.some.inj h
    exact List.Pairwise.nil
  rw [if_neg h2] at h
  obtain rfl := Option.some.inj h
  have htsne : spike_times_of rms pitch_var ≠ [] := by
    unfold spike_times_of
    simpa using h2
  rw [merge_spikes_eq htsne (spike_heats_of rms pitch_var) MERGE_SECONDS,
    List.pairwise_map]
  apply chain'_pairwise
  · intro a b c hab hbc
    simp only [MERGE_SECONDS] at hab hbc ⊢
    exact ⟨lt_trans hab.1 hbc.1, by linarith [hab.2, hbc.2]⟩
  apply chain'_imp_mem
    (build_groups_chain' (spike_times_of rms pitch_var) MERGE_SECONDS)
  intro g₁ g₂ hm₁ hm₂ hbnd
  have hg₁ne : g₁ ≠ [] := mem_build_groups_ne_nil hm₁
  have hg₂ne : g₂ ≠ [] := mem_build_groups_ne_nil hm₂
  have hp₁ : g₁.Pairwise (· < ·) := mem_build_groups_pairwise htsne hm₁
  have hp₂ : g₂.Pairwise (· < ·) := mem_build_groups_pairwise htsne hm₂
  have har₁ : best_of (spike_heats_of rms pitch_var) g₁ ≤ g₁.getLastD 0 :=
    pairwise_le_getLastD hp₁ (best_of_mem hg₁ne)
  have hbr₂ : g₂.headD 0 ≤ best_of (spike_heats_of rms pitch_var) g₂ :=
    pairwise_headD_le hp₂ (best_of_mem hg₂ne)
  have halt : g₁.getLastD 0 < (spike_frames_of rms pitch_var).length := by
    have h := mem_build_groups_lt htsne hm₁ (getLastD_mem hg₁ne 0)
    rwa [spike_times_length] at h
  have hblt : g₂.headD 0 < (spike_frames_of rms pitch_var).length := by
    have h := mem_build_groups_lt htsne hm₂ (headD_mem hg₂ne)
    rwa [spike_times_length] at h
  have hr₁lt : best_of (spike_heats_of rms pitch_var) g₁ <
      (spike_frames_of rms pitch_var).length := by
    have h : best_of (spike_heats_of rms pitch_var) g₁ <
        (spike_times_of rms pitch_var).length :=
      mem_build_groups_lt htsne hm₁ (best_of_mem hg₁ne)
    rwa [spike_times_length] at h
  have hr₂lt : best_of (spike_heats_of rms pitch_var) g₂ <
      (spike_frames_of rms pitch_var).length := by
    have h : best_of (spike_heats_of rms pitch_var) g₂ <
        (spike_times_of rms pitch_var).length :=
      mem_build_groups_lt htsne hm₂ (best_of_mem hg₂ne)
    rwa [spike_times_length] at h
  have hgap : MERGE_SECONDS <
      (spike_times_of rms pitch_var).getD (g₂.headD 0) 0 -
        (spike_times_of rms pitch_var).getD (g₁.getLastD 0) 0 := not_le.mp hbnd
  have hgap2 : (11264 : ℚ) / 22050 ≤
      (spike_times_of rms pitch_var).getD (g₂.headD 0) 0 -
        (spike_times_of rms pitch_var).getD (g₁.getLastD 0) 0 := by
    rw [spike_times_getD rms pitch_var hblt, spike_times_getD rms pitch_var halt] at hgap ⊢
    exact frame_gap_ge hgap
  have hmono₁ : (spike_times_of rms pitch_var).getD
        (best_of (spike_heats_of rms pitch_var) g₁) 0 ≤
      (spike_times_of rms pitch_var).getD (g₁.getLastD 0) 0 := by
    rw [spike_times_getD rms pitch_var hr₁lt, spike_times_getD rms pitch_var halt]
    exact frames_to_time_mono (frames_getD_mono rms pitch_var har₁ halt)
  have hmono₂ : (spike_times_of rms pitch_var).getD (g₂.headD 0) 0 ≤
      (spike_times_of rms pitch_var).getD
        (best_of (spike_heats_of rms pitch_var) g₂) 0 := by
    rw [spike_times_getD rms pitch_var hr₂lt, spike_times_getD rms pitch_var hblt]
    exact frames_to_time_mono (frames_getD_mono rms pitch_var hbr₂ hr₂lt)
  have hr1 := abs_round_to_sub 2 ((spike_times_of rms pitch_var).getD
    (best_of (spike_heats_of rms pitch_var) g₁) 0)
  have hr2 := abs_round_to_sub 2 ((spike_times_of rms pitch_var).getD
    (best_of (spike_heats_of rms pitch_var) g₂) 0)
  rw [abs_le] at hr1 hr2
  have h200 : (1 : ℚ) / (2 * 10 ^ 2) = 1 / 200 := by norm_num
  rw [h200] at hr1 hr2
  have hnum : (1 : ℚ) / 2 < 11264 / 22050 - 1 / 100 := by norm_num
  constructor
  · show round_to 2 ((spike_times_of rms pitch_var).getD
        (best_of (spike_heats_of rms pitch_var) g₁) 0) <
      round_to 2 ((spike_times_of rms pitch_var).getD
        (best_of (spike_heats_of rms pitch_var) g₂) 0)
    linarith [hr1.1, hr1.2, hr2.1, hr2.2]
  · show MERGE_SECONDS <
      round_to 2 ((spike_times_of rms pitch_var).getD
        (best_of (spike_heats_of rms pitch_var) g₂) 0) -
      round_to 2 ((spike_times_of rms pitch_var).getD
        (best_of (spike_heats_of rms pitch_var) g₁) 0)
    simp only [MERGE_SECONDS]
    linarith [hr1.1, hr1.2, hr2.1, hr2.2]

/-- Witness for C5 at `rms = [0, 1]`, `pitch_var = [0, 0]`: the pipeline
returns `some [⟨1/50, 1⟩]` and the output satisfies the ordering/gap
invariant. -/
theorem C5_witness :
    List.Pairwise (fun a b : MergedSpike => a.seconds < b.seconds ∧
      MERGE_SECONDS < b.seconds - a.seconds) [(⟨1/50, 1⟩ : MergedSpike)] :=
  C5_output_sorted_gap [0, 1] [0, 0] [⟨1/50, 1⟩] (by
    have hheat : heat_seq [0, 1] [0, 0] = [0, 1] := by
      norm_num [heat_seq, aligned, _normalize, listMin, listMax, min_def, max_def,
        List.replicate]
    have hframes : spike_frames_of [0, 1] [0, 0] = [1] := by
      norm_num [spike_frames_of, threshold_of, np_percentile, heat_seq, aligned,
        _normalize, listMin, listMax, min_def, max_def, SPIKE_PERCENTILE,
        List.insertionSort, List.orderedInsert, Int.fract, List.range_succ,
        List.replicate]
    unfold detect_spikes spike_times_of spike_heats_of
    rw [hheat, hframes]
    norm_num [_merge_spikes, build_groups, groupStep, best_of, np_argmax, argmaxAux,
      round_to, round_eq, frames_to_time, HOP_LENGTH, SR, MERGE_SECONDS, List.range']
    intro hx
    exact absurd hx (by simp))

end AcousticEngine
